import Mathlib

/-!
# Verification of the contiguous tensor-concatenation CPU kernel

Shallow embedding of `aten/src/ATen/native/cpu/CatKernel.cpp`
(`cat_contig_kernel_impl`, in its two variants: the parallel
memcpy-based one and the sequential SIMD/scalar one) over an
element-addressed memory model.  A tensor is modelled by its size and
stride metadata together with a read-only element map; the output
buffer is a mutable memory `Nat → α`, with the output base pointer at
address 0.
-/

namespace CatKernel

/-- Element-addressed memory: address (in elements, not bytes) to value. -/
def Mem (α : Type) : Type := Nat → α

/-- A tensor as seen by the kernel: per-axis extents, per-axis strides
(in elements) and its element data, addressed from its base pointer. -/
structure Tensor (α : Type) where
  sizes : List Nat
  strides : List Nat
  data : Mem α

/-- `t.size(d)` of the C++ API. -/
def Tensor.size (t : Tensor α) (d : Nat) : Nat := t.sizes.getD d 0

/-- `t.stride(d)` of the C++ API. -/
def Tensor.stride (t : Tensor α) (d : Nat) : Nat := t.strides.getD d 0

/-- `t.numel()`: total element count, product of extents. -/
def Tensor.numel (t : Tensor α) : Nat := t.sizes.prod

/-- Contiguity (row-major): the stride along each axis equals the
product of the extents of the axes after it. -/
def Tensor.contiguous (t : Tensor α) : Prop :=
  t.strides.length = t.sizes.length ∧
    ∀ d, d < t.sizes.length → t.stride d = (t.sizes.drop (d + 1)).prod

/-- `local_inner` of the source: `t.size(dim) * t.stride(dim)`, the
contiguous element count tensor `t` contributes per outer index. -/
def innerSizeOf (t : Tensor α) (dim : Nat) : Nat := t.size dim * t.stride dim

/-- `outer` of the source:
`result.numel() / (result.size(dim) * result.stride(dim))`. -/
def outerCount (result : Tensor α) (dim : Nat) : Nat :=
  result.numel / (result.size dim * result.stride dim)

/-- `output_stride` of the source: `result.stride(dim) * result.size(dim)`,
the distance between consecutive outer groups in the output. -/
def outputStride (result : Tensor α) (dim : Nat) : Nat :=
  result.stride dim * result.size dim

/-- Modelled from the spec: `at::internal::GRAIN_SIZE`, the global
per-task work-size constant of the external parallel runtime (its
header is not part of this repository; ATen sets it to 32768). -/
def GRAIN_SIZE : Nat := 32768

/-- `adjusted_grain_size` of the source:
`at::internal::GRAIN_SIZE / output_stride`. -/
def adjustedGrainSize (result : Tensor α) (dim : Nat) : Nat :=
  GRAIN_SIZE / outputStride result dim

/-- Element-level semantics of `std::memcpy(dst_ptr, src_ptr, n * sizeof)`:
addresses `[dst, dst + n)` of `mem` receive `src (srcOff + k)`,
every other address is untouched. -/
def memcpy (mem : Mem α) (dst : Nat) (src : Mem α) (srcOff n : Nat) : Mem α :=
  fun a => if dst ≤ a ∧ a < dst + n then src (srcOff + (a - dst)) else mem a

/-- The inner `for (const auto& t : tensors)` loop of the parallel
variant's `loop_nd`, at outer index `i` with the output cursor at
`outPtr`: copy `innerSizeOf t dim` elements of each tensor from source
offset `i * innerSizeOf t dim`, advancing the cursor after each. -/
def catCopyInputs (dim i : Nat) : List (Tensor α) → Nat → Mem α → Mem α
  | [], _, mem => mem
  | t :: ts, outPtr, mem =>
      catCopyInputs dim i ts (outPtr + innerSizeOf t dim)
        (memcpy mem outPtr t.data (i * innerSizeOf t dim) (innerSizeOf t dim))

/-- `loop_nd` of the parallel variant on the half-open range
`[start, start + n)`: each outer index `i` writes from the cursor
`result_data + i * output_stride`. -/
def loopND (tensors : List (Tensor α)) (dim oStride : Nat) :
    Nat → Nat → Mem α → Mem α
  | _, 0, mem => mem
  | start, n + 1, mem =>
      loopND tensors dim oStride (start + 1) n
        (catCopyInputs dim start tensors (start * oStride) mem)

/-- `cat_contig_kernel_impl` (parallel memcpy variant): runs `loop_nd`
over the whole range `[0, outer)`.  The external `at::parallel_for`
only shards this range into sub-ranges; its sequential semantics is the
full run (sharding invariance is proved separately). -/
def cat_contig_kernel_impl (result : Tensor α) (tensors : List (Tensor α))
    (dim : Nat) : Mem α :=
  loopND tensors dim (outputStride result dim) 0 (outerCount result dim)
    result.data

/-- One parallel task executes `loop_nd` on its sub-range `(start, len)`;
a task list is executed task after task (any serialization of the
parallel execution: the tasks write disjoint memory). -/
def runSegments (tensors : List (Tensor α)) (dim oStride : Nat) :
    List (Nat × Nat) → Mem α → Mem α
  | [], mem => mem
  | (s, n) :: rest, mem =>
      runSegments tensors dim oStride rest (loopND tensors dim oStride s n mem)

/-- The multiset of outer indices a task list covers. -/
def segIndices (segs : List (Nat × Nat)) : List Nat :=
  segs.flatMap fun p => (List.range p.2).map (p.1 + ·)

/-! ## The sequential SIMD/scalar variant -/

/-- `InputMeta` of the source: base pointer and
`inner_size = t.size(dim) * inner` where the caller passes
`inner = t.stride(dim)`. -/
structure InputMeta (α : Type) where
  data_ptr : Mem α
  inner_size : Nat

/-- The `InputMeta(t, dim, inner)` constructor. -/
def InputMeta.ofTensor (t : Tensor α) (dim inner : Nat) : InputMeta α :=
  ⟨t.data, t.size dim * inner⟩

/-- The metadata-building loop:
`inputs.emplace_back(tensor, dim, tensor.stride(dim))`. -/
def buildInputs (tensors : List (Tensor α)) (dim : Nat) : List (InputMeta α) :=
  tensors.map fun t => InputMeta.ofTensor t dim (t.stride dim)

/-- Pointwise update of one memory cell (one scalar store). -/
def writeElem (mem : Mem α) (a : Nat) (v : α) : Mem α :=
  fun b => if b = a then v else mem b

/-- The scalar path `for (k = 0; k < local_inner; k++)
result_ptr[k] = input_ptr[k]`, elements stored in ascending order. -/
def scalarCopyLoop : Mem α → Nat → Mem α → Nat → Nat → Mem α
  | mem, _, _, _, 0 => mem
  | mem, dst, src, srcOff, n + 1 =>
      scalarCopyLoop (writeElem mem dst (src srcOff)) (dst + 1) src
        (srcOff + 1) n

/-- Modelled from the spec: the chunk loop of `vec256::map` with the
identity op (`ATen/cpu/vec256/functional.h` is not part of this
repository).  `chunks` full SIMD-width stores of `W` elements each,
then one masked store of the `rem` remainder elements ("full SIMD-width
chunks plus a scalar remainder"). -/
def vecMapCopyAux (W : Nat) (src : Mem α) :
    Nat → Nat → Nat → Nat → Mem α → Mem α
  | 0, dst, srcOff, rem, mem =>
      if 0 < rem then memcpy mem dst src srcOff rem else mem
  | c + 1, dst, srcOff, rem, mem =>
      vecMapCopyAux W src c (dst + W) (srcOff + W) rem
        (memcpy mem dst src srcOff W)

/-- Modelled from the spec: `vec256::map([](Vec x) \x7b return x; \x7d,
result_ptr, input_ptr, local_inner)` — a vectorized bulk move of
`n` elements, subdivided into `n / W` full chunks plus an `n % W`
remainder. -/
def vecMapCopy (W : Nat) (mem : Mem α) (dst : Nat) (src : Mem α)
    (srcOff n : Nat) : Mem α :=
  vecMapCopyAux W src (n / W) dst srcOff (n % W) mem

/-- The per-contribution copy dispatch of the sequential variant:
`if (local_inner < Vec::size())` take the scalar loop, else the
vectorized bulk move.  `W` is `Vec::size()`, the SIMD lane width. -/
def catCopyDispatch (W : Nat) (mem : Mem α) (dst : Nat) (src : Mem α)
    (srcOff n : Nat) : Mem α :=
  if n < W then scalarCopyLoop mem dst src srcOff n
  else vecMapCopy W mem dst src srcOff n

/-- The inner `for (j = 0; j < ninputs; j++)` loop of the sequential
variant: copy `inputs[j].inner_size` elements from source offset
`i * inner_size` through the dispatch, then advance `result_ptr`.
Returns the memory together with the advanced cursor. -/
def catSeqInputs (W i : Nat) : List (InputMeta α) → Nat → Mem α → Mem α × Nat
  | [], resPtr, mem => (mem, resPtr)
  | inp :: rest, resPtr, mem =>
      catSeqInputs W i rest (resPtr + inp.inner_size)
        (catCopyDispatch W mem resPtr inp.data_ptr (i * inp.inner_size)
          inp.inner_size)

/-- The outer `for (i = 0; i < outer; ++i)` loop of the sequential
variant; `result_ptr` is a running cursor carried across iterations. -/
def catSeqOuter (W : Nat) (inputs : List (InputMeta α)) :
    Nat → Nat → Nat → Mem α → Mem α
  | 0, _, _, mem => mem
  | n + 1, i, resPtr, mem =>
      catSeqOuter W inputs n (i + 1) (catSeqInputs W i inputs resPtr mem).2
        (catSeqInputs W i inputs resPtr mem).1

/-- `cat_contig_kernel_impl` (sequential SIMD/scalar variant): builds
the `InputMeta` list, then runs the cursor loop from `result_data`
(address 0) over `outer` iterations. -/
def cat_contig_kernel_impl_seq (W : Nat) (result : Tensor α)
    (tensors : List (Tensor α)) (dim : Nat) : Mem α :=
  catSeqOuter W (buildInputs tensors dim) (outerCount result dim) 0 0
    result.data

/-! ## Specification-side definitions -/

/-- Total inner size of a tensor list: the number of elements one outer
group receives, `Σ_j inner_size[j]`. -/
def totalInner (dim : Nat) : List (Tensor α) → Nat
  | [] => 0
  | t :: ts => innerSizeOf t dim + totalInner dim ts

/-- Sum of the `inner_size` fields of a metadata list. -/
def totalMeta : List (InputMeta α) → Nat
  | [] => 0
  | inp :: rest => inp.inner_size + totalMeta rest

/-- Reading the concatenation, in input-list order, of the tensors'
inner runs for outer index `i`, at running offset `r`: `some` of input
`j`'s element `i * inner_size[j] + (r - Σ_{j' < j} inner_size[j'])`
when `r` falls in input `j`'s span, `none` past the total. -/
def catReadD (dim i : Nat) : List (Tensor α) → Nat → Option α
  | [], _ => none
  | t :: ts, r =>
      if r < innerSizeOf t dim then some (t.data (i * innerSizeOf t dim + r))
      else catReadD dim i ts (r - innerSizeOf t dim)

/-- `Σ_{j' < j} inner_size[j']`: the offset of input `j`'s contribution
inside one outer group. -/
def offsetBefore (dim : Nat) : List (Tensor α) → Nat → Nat
  | [], _ => 0
  | _, 0 => 0
  | t :: ts, j + 1 => innerSizeOf t dim + offsetBefore dim ts j

/-- `inner_size[j]` by position (0 past the end). -/
def innerAt (dim : Nat) : List (Tensor α) → Nat → Nat
  | [], _ => 0
  | t :: _, 0 => innerSizeOf t dim
  | _ :: ts, j + 1 => innerAt dim ts j

/-- The output-element addresses the `(i, j)` copy writes:
`[i * oStride + offsetBefore j, … + inner_size[j])`. -/
def writesAddr (tensors : List (Tensor α)) (dim oStride i j a : Nat) : Prop :=
  j < tensors.length ∧
    i * oStride + offsetBefore dim tensors j ≤ a ∧
    a < i * oStride + offsetBefore dim tensors j + innerAt dim tensors j

instance (tensors : List (Tensor α)) (dim oStride i j a : Nat) :
    Decidable (writesAddr tensors dim oStride i j a) := by
  unfold writesAddr; infer_instance

/-- Mapping a function over the element data of a tensor, leaving the
metadata alone: the device for stating that the kernel is a pure bit
copy (it commutes with any reinterpretation of the element values). -/
def mapTensor (f : α → β) (t : Tensor α) : Tensor β :=
  ⟨t.sizes, t.strides, fun a => f (t.data a)⟩

/-- Executing the per-outer-index copy for each index of a list in
order: the semantic normal form shared by `loopND`, `runSegments` and
the sequential variant's outer loop. -/
def runIndices (tensors : List (Tensor α)) (dim oStride : Nat) :
    List Nat → Mem α → Mem α
  | [], mem => mem
  | i :: rest, mem =>
      runIndices tensors dim oStride rest
        (catCopyInputs dim i tensors (i * oStride) mem)

/-! ## Memory lemmas -/

theorem memcpy_in (mem : Mem α) (dst : Nat) (src : Mem α) (srcOff n k : Nat)
    (hk : k < n) : memcpy mem dst src srcOff n (dst + k) = src (srcOff + k) := by
  have h : dst ≤ dst + k ∧ dst + k < dst + n := ⟨Nat.le_add_right _ _, by omega⟩
  simp only [memcpy, if_pos h, Nat.add_sub_cancel_left]

theorem memcpy_out (mem : Mem α) (dst : Nat) (src : Mem α) (srcOff n a : Nat)
    (h : a < dst ∨ dst + n ≤ a) : memcpy mem dst src srcOff n a = mem a := by
  have h' : ¬(dst ≤ a ∧ a < dst + n) := by omega
  simp only [memcpy, if_neg h']

theorem memcpy_zero (mem : Mem α) (dst : Nat) (src : Mem α) (srcOff : Nat) :
    memcpy mem dst src srcOff 0 = mem := by
  funext a
  exact memcpy_out mem dst src srcOff 0 a (by omega)

theorem memcpy_join (mem : Mem α) (dst : Nat) (src : Mem α) (srcOff m n : Nat) :
    memcpy (memcpy mem dst src srcOff m) (dst + m) src (srcOff + m) n
      = memcpy mem dst src srcOff (m + n) := by
  funext a
  simp only [memcpy]
  split_ifs <;> first | rfl | omega | (congr 1; omega)

theorem writeElem_eq_memcpy_one (mem : Mem α) (dst : Nat) (src : Mem α)
    (srcOff : Nat) :
    writeElem mem dst (src srcOff) = memcpy mem dst src srcOff 1 := by
  funext a
  simp only [writeElem, memcpy]
  split_ifs <;> first | (congr 1; omega) | omega | rfl

theorem scalarCopyLoop_eq_memcpy (mem : Mem α) (dst : Nat) (src : Mem α)
    (srcOff n : Nat) :
    scalarCopyLoop mem dst src srcOff n = memcpy mem dst src srcOff n := by
  induction n generalizing mem dst srcOff with
  | zero => exact (memcpy_zero mem dst src srcOff).symm
  | succ m ih =>
      show scalarCopyLoop (writeElem mem dst (src srcOff)) (dst + 1) src
          (srcOff + 1) m = _
      rw [ih, writeElem_eq_memcpy_one mem dst src srcOff,
        memcpy_join mem dst src srcOff 1 m, Nat.add_comm 1 m]

theorem vecMapCopyAux_eq_memcpy (W : Nat) (src : Mem α) (c dst srcOff rem : Nat)
    (mem : Mem α) :
    vecMapCopyAux W src c dst srcOff rem mem
      = memcpy mem dst src srcOff (c * W + rem) := by
  induction c generalizing dst srcOff mem with
  | zero =>
      show (if 0 < rem then memcpy mem dst src srcOff rem else mem) = _
      have h : 0 * W + rem = rem := by omega
      rw [h]
      split_ifs with hrem
      · rfl
      · have h0 : rem = 0 := by omega
        rw [h0, memcpy_zero]
  | succ c ih =>
      show vecMapCopyAux W src c (dst + W) (srcOff + W) rem
          (memcpy mem dst src srcOff W) = _
      rw [ih, memcpy_join mem dst src srcOff W (c * W + rem)]
      ring_nf

theorem vecMapCopy_eq_memcpy (W : Nat) (mem : Mem α) (dst : Nat) (src : Mem α)
    (srcOff n : Nat) :
    vecMapCopy W mem dst src srcOff n = memcpy mem dst src srcOff n := by
  show vecMapCopyAux W src (n / W) dst srcOff (n % W) mem = _
  rw [vecMapCopyAux_eq_memcpy, Nat.mul_comm (n / W) W, Nat.div_add_mod]

theorem catCopyDispatch_eq_memcpy (W : Nat) (mem : Mem α) (dst : Nat)
    (src : Mem α) (srcOff n : Nat) :
    catCopyDispatch W mem dst src srcOff n = memcpy mem dst src srcOff n := by
  show (if n < W then scalarCopyLoop mem dst src srcOff n
    else vecMapCopy W mem dst src srcOff n) = _
  split_ifs
  · exact scalarCopyLoop_eq_memcpy mem dst src srcOff n
  · exact vecMapCopy_eq_memcpy W mem dst src srcOff n

/-! ## Inner-loop lemmas -/

theorem catCopyInputs_frame (dim i : Nat) (ts : List (Tensor α))
    (outPtr : Nat) (mem : Mem α) (a : Nat)
    (h : a < outPtr ∨ outPtr + totalInner dim ts ≤ a) :
    catCopyInputs dim i ts outPtr mem a = mem a := by
  induction ts generalizing outPtr mem with
  | nil => rfl
  | cons t ts ih =>
      show catCopyInputs dim i ts (outPtr + innerSizeOf t dim)
        (memcpy mem outPtr t.data (i * innerSizeOf t dim)
          (innerSizeOf t dim)) a = mem a
      have htot : totalInner dim (t :: ts)
          = innerSizeOf t dim + totalInner dim ts := rfl
      rw [ih (outPtr + innerSizeOf t dim) _ (by omega)]
      exact memcpy_out mem outPtr t.data (i * innerSizeOf t dim)
        (innerSizeOf t dim) a (by omega)

theorem catCopyInputs_read (dim i : Nat) (ts : List (Tensor α))
    (outPtr : Nat) (mem : Mem α) (r : Nat) (hr : r < totalInner dim ts) :
    catReadD dim i ts r = some (catCopyInputs dim i ts outPtr mem (outPtr + r)) := by
  induction ts generalizing outPtr mem r with
  | nil => exact absurd hr (by simp [totalInner])
  | cons t ts ih =>
      have htot : totalInner dim (t :: ts)
          = innerSizeOf t dim + totalInner dim ts := rfl
      show (if r < innerSizeOf t dim
          then some (t.data (i * innerSizeOf t dim + r))
          else catReadD dim i ts (r - innerSizeOf t dim))
        = some (catCopyInputs dim i ts (outPtr + innerSizeOf t dim)
            (memcpy mem outPtr t.data (i * innerSizeOf t dim)
              (innerSizeOf t dim)) (outPtr + r))
      by_cases hcase : r < innerSizeOf t dim
      · rw [if_pos hcase,
          catCopyInputs_frame dim i ts (outPtr + innerSizeOf t dim) _ _
            (by omega),
          memcpy_in mem outPtr t.data (i * innerSizeOf t dim)
            (innerSizeOf t dim) r hcase]
      · rw [if_neg hcase]
        have ha : outPtr + r
            = (outPtr + innerSizeOf t dim) + (r - innerSizeOf t dim) := by
          omega
        rw [ha]
        exact ih (outPtr + innerSizeOf t dim) _ (r - innerSizeOf t dim)
          (by omega)

theorem offsetBefore_innerAt_le_total (dim : Nat) (ts : List (Tensor α))
    (j : Nat) (hj : j < ts.length) :
    offsetBefore dim ts j + innerAt dim ts j ≤ totalInner dim ts := by
  induction ts generalizing j with
  | nil => simp at hj
  | cons t ts ih =>
      have htot : totalInner dim (t :: ts)
          = innerSizeOf t dim + totalInner dim ts := rfl
      cases j with
      | zero =>
          show 0 + innerSizeOf t dim ≤ _
          omega
      | succ j =>
          have := ih j (by simpa using hj)
          show innerSizeOf t dim + offsetBefore dim ts j
              + innerAt dim ts j ≤ _
          omega

theorem offsetBefore_mono (dim : Nat) (ts : List (Tensor α)) (j j' : Nat)
    (hjj : j < j') (hj' : j' < ts.length) :
    offsetBefore dim ts j + innerAt dim ts j ≤ offsetBefore dim ts j' := by
  induction ts generalizing j j' with
  | nil => simp at hj'
  | cons t ts ih =>
      cases j with
      | zero =>
          obtain ⟨j'', rfl⟩ : ∃ k, j' = k + 1 := ⟨j' - 1, by omega⟩
          show 0 + innerSizeOf t dim
              ≤ innerSizeOf t dim + offsetBefore dim ts j''
          omega
      | succ j =>
          obtain ⟨j'', rfl⟩ : ∃ k, j' = k + 1 := ⟨j' - 1, by omega⟩
          have := ih j j'' (by omega) (by simpa using hj')
          show innerSizeOf t dim + offsetBefore dim ts j + innerAt dim ts j
              ≤ innerSizeOf t dim + offsetBefore dim ts j''
          omega

theorem exists_cover (dim : Nat) (ts : List (Tensor α)) (r : Nat)
    (hr : r < totalInner dim ts) :
    ∃ j, j < ts.length ∧ offsetBefore dim ts j ≤ r ∧
      r < offsetBefore dim ts j + innerAt dim ts j := by
  induction ts generalizing r with
  | nil => exact absurd hr (by simp [totalInner])
  | cons t ts ih =>
      have htot : totalInner dim (t :: ts)
          = innerSizeOf t dim + totalInner dim ts := rfl
      by_cases hcase : r < innerSizeOf t dim
      · exact ⟨0, by simp, by simp [offsetBefore], by
          show r < 0 + innerSizeOf t dim
          omega⟩
      · obtain ⟨j, hj, h1, h2⟩ := ih (r - innerSizeOf t dim) (by omega)
        refine ⟨j + 1, by simpa using hj, ?_, ?_⟩
        · show innerSizeOf t dim + offsetBefore dim ts j ≤ r
          omega
        · show r < innerSizeOf t dim + offsetBefore dim ts j
            + innerAt dim ts j
          omega

theorem innerAt_eq_get (dim : Nat) (ts : List (Tensor α)) (j : Nat)
    (hj : j < ts.length) :
    innerAt dim ts j = innerSizeOf (ts.get ⟨j, hj⟩) dim := by
  induction ts generalizing j with
  | nil => simp at hj
  | cons t ts ih =>
      cases j with
      | zero => rfl
      | succ j => exact ih j (by simpa using hj)

theorem catReadD_at (dim i : Nat) (ts : List (Tensor α)) (j : Nat)
    (hj : j < ts.length) (k : Nat) (hk : k < innerAt dim ts j) :
    catReadD dim i ts (offsetBefore dim ts j + k)
      = some ((ts.get ⟨j, hj⟩).data (i * innerAt dim ts j + k)) := by
  induction ts generalizing j with
  | nil => simp at hj
  | cons t ts ih =>
      cases j with
      | zero =>
          have hk' : k < innerSizeOf t dim := hk
          have h0 : offsetBefore dim (t :: ts) 0 + k = k := by
            show 0 + k = k
            omega
          rw [h0]
          show (if k < innerSizeOf t dim
            then some (t.data (i * innerSizeOf t dim + k)) else _) = _
          rw [if_pos hk']
          rfl
      | succ j =>
          have hj' : j < ts.length := by simpa using hj
          have harg : offsetBefore dim (t :: ts) (j + 1) + k
              = innerSizeOf t dim + (offsetBefore dim ts j + k) := by
            show innerSizeOf t dim + offsetBefore dim ts j + k = _
            omega
          rw [harg]
          show (if innerSizeOf t dim + (offsetBefore dim ts j + k)
              < innerSizeOf t dim then _ else catReadD dim i ts _) = _
          rw [if_neg (by omega)]
          have hsub : innerSizeOf t dim + (offsetBefore dim ts j + k)
              - innerSizeOf t dim = offsetBefore dim ts j + k := by omega
          rw [hsub]
          exact ih j hj' hk

/-! ## Outer-loop lemmas -/

theorem loopND_eq_runIndices (ts : List (Tensor α)) (dim oStride : Nat)
    (start n : Nat) (mem : Mem α) :
    loopND ts dim oStride start n mem
      = runIndices ts dim oStride (List.range' start n) mem := by
  induction n generalizing start mem with
  | zero => rfl
  | succ n ih =>
      rw [List.range'_succ]
      exact ih (start + 1) _

theorem runIndices_append (ts : List (Tensor α)) (dim oStride : Nat)
    (l₁ l₂ : List Nat) (mem : Mem α) :
    runIndices ts dim oStride (l₁ ++ l₂) mem
      = runIndices ts dim oStride l₂ (runIndices ts dim oStride l₁ mem) := by
  induction l₁ generalizing mem with
  | nil => rfl
  | cons i l₁ ih => exact ih _

theorem runSegments_eq_runIndices (ts : List (Tensor α)) (dim oStride : Nat)
    (segs : List (Nat × Nat)) (mem : Mem α) :
    runSegments ts dim oStride segs mem
      = runIndices ts dim oStride (segIndices segs) mem := by
  induction segs generalizing mem with
  | nil => rfl
  | cons p segs ih =>
      obtain ⟨s, n⟩ := p
      show runSegments ts dim oStride segs (loopND ts dim oStride s n mem) = _
      rw [ih, loopND_eq_runIndices]
      have hseg : segIndices ((s, n) :: segs)
          = (List.range n).map (s + ·) ++ segIndices segs := by
        simp [segIndices]
      rw [hseg, runIndices_append, List.range'_eq_map_range]

theorem runIndices_frame (ts : List (Tensor α)) (dim oStride : Nat)
    (l : List Nat) (mem : Mem α) (a : Nat)
    (h : ∀ i ∈ l, a < i * oStride ∨ i * oStride + totalInner dim ts ≤ a) :
    runIndices ts dim oStride l mem a = mem a := by
  induction l generalizing mem with
  | nil => rfl
  | cons i l ih =>
      show runIndices ts dim oStride l
        (catCopyInputs dim i ts (i * oStride) mem) a = mem a
      rw [ih _ fun i' hi' => h i' (List.mem_cons_of_mem i hi')]
      exact catCopyInputs_frame dim i ts (i * oStride) mem a
        (h i (List.mem_cons_self i l))

theorem runIndices_read (ts : List (Tensor α)) (dim oStride : Nat)
    (hle : totalInner dim ts ≤ oStride) (l : List Nat) (mem : Mem α)
    (i r : Nat) (hi : i ∈ l) (hr : r < totalInner dim ts) :
    catReadD dim i ts r
      = some (runIndices ts dim oStride l mem (i * oStride + r)) := by
  induction l generalizing mem with
  | nil => simp at hi
  | cons i' l ih =>
      show catReadD dim i ts r = some (runIndices ts dim oStride l
        (catCopyInputs dim i' ts (i' * oStride) mem) (i * oStride + r))
      by_cases hmem : i ∈ l
      · exact ih _ hmem
      · have hii' : i = i' := by
          rcases List.mem_cons.mp hi with h | h
          · exact h
          · exact absurd h hmem
        subst hii'
        rw [runIndices_frame ts dim oStride l _ _ ?_]
        · exact catCopyInputs_read dim i ts (i * oStride) mem r hr
        · intro i'' hi''
          have hne : i'' ≠ i := fun h => hmem (h ▸ hi'')
          rcases Nat.lt_or_ge i'' i with hlt | hge
          · right
            have : (i'' + 1) * oStride ≤ i * oStride :=
              mul_le_mul_right' (by omega) oStride
            have h1 : i'' * oStride + oStride ≤ i * oStride := by
              have e : (i'' + 1) * oStride = i'' * oStride + oStride := by
                ring
              omega
            omega
          · left
            have hgt : i + 1 ≤ i'' := by omega
            have : (i + 1) * oStride ≤ i'' * oStride :=
              mul_le_mul_right' hgt oStride
            have e : (i + 1) * oStride = i * oStride + oStride := by ring
            omega

theorem runIndices_ext (ts : List (Tensor α)) (dim oStride : Nat)
    (hle : totalInner dim ts ≤ oStride) (l₁ l₂ : List Nat) (mem : Mem α)
    (hmem : ∀ i, i ∈ l₁ ↔ i ∈ l₂) :
    runIndices ts dim oStride l₁ mem = runIndices ts dim oStride l₂ mem := by
  funext a
  by_cases hx : ∃ i r, i ∈ l₁ ∧ r < totalInner dim ts ∧ a = i * oStride + r
  · obtain ⟨i, r, hi, hr, rfl⟩ := hx
    have h1 := runIndices_read ts dim oStride hle l₁ mem i r hi hr
    have h2 := runIndices_read ts dim oStride hle l₂ mem i r
      ((hmem i).mp hi) hr
    exact Option.some.inj (h1.symm.trans h2)
  · push_neg at hx
    rw [runIndices_frame ts dim oStride l₁ mem a ?_,
      runIndices_frame ts dim oStride l₂ mem a ?_]
    · intro i hi
      by_contra hcon
      push_neg at hcon
      exact hx i (a - i * oStride) ((hmem i).mpr hi) (by omega) (by omega)
    · intro i hi
      by_contra hcon
      push_neg at hcon
      exact hx i (a - i * oStride) hi (by omega) (by omega)

/-! ## Normalizing the sequential variant -/

theorem catSeqInputs_build (W dim i : Nat) (ts : List (Tensor α))
    (resPtr : Nat) (mem : Mem α) :
    catSeqInputs W i (buildInputs ts dim) resPtr mem
      = (catCopyInputs dim i ts resPtr mem, resPtr + totalInner dim ts) := by
  induction ts generalizing resPtr mem with
  | nil =>
      show (mem, resPtr) = (mem, resPtr + 0)
      rw [Nat.add_zero]
  | cons t ts ih =>
      show catSeqInputs W i (buildInputs ts dim)
          (resPtr + innerSizeOf t dim)
          (catCopyDispatch W mem resPtr t.data (i * innerSizeOf t dim)
            (innerSizeOf t dim)) = _
      rw [catCopyDispatch_eq_memcpy, ih]
      have htot : totalInner dim (t :: ts)
          = innerSizeOf t dim + totalInner dim ts := rfl
      rw [Prod.mk.injEq]
      exact ⟨rfl, by omega⟩

theorem catSeqOuter_eq_loopND (W dim : Nat) (ts : List (Tensor α))
    (n i : Nat) (mem : Mem α) :
    catSeqOuter W (buildInputs ts dim) n i (i * totalInner dim ts) mem
      = loopND ts dim (totalInner dim ts) i n mem := by
  induction n generalizing i mem with
  | zero => rfl
  | succ n ih =>
      show catSeqOuter W (buildInputs ts dim) n (i + 1)
          (catSeqInputs W i (buildInputs ts dim) (i * totalInner dim ts) mem).2
          (catSeqInputs W i (buildInputs ts dim) (i * totalInner dim ts) mem).1
        = _
      rw [catSeqInputs_build]
      have hcur : i * totalInner dim ts + totalInner dim ts
          = (i + 1) * totalInner dim ts := by ring
      rw [hcur, ih (i + 1)]
      rfl

theorem seq_eq_loopND (W : Nat) (result : Tensor α) (ts : List (Tensor α))
    (dim : Nat) :
    cat_contig_kernel_impl_seq W result ts dim
      = loopND ts dim (totalInner dim ts) 0 (outerCount result dim)
          result.data := by
  show catSeqOuter W (buildInputs ts dim) (outerCount result dim) 0 0
      result.data = _
  have h := catSeqOuter_eq_loopND W dim ts (outerCount result dim) 0
    result.data
  rw [Nat.zero_mul] at h
  exact h

theorem loopND_nil (dim oStride start n : Nat) (mem : Mem α) :
    loopND ([] : List (Tensor α)) dim oStride start n mem = mem := by
  induction n generalizing start with
  | zero => rfl
  | succ n ih => exact ih (start + 1)

/-! ## Commutation with element maps (pure data movement) -/

theorem memcpy_map (f : α → β) (mem : Mem α) (dst : Nat) (src : Mem α)
    (srcOff n : Nat) :
    memcpy (fun x => f (mem x)) dst (fun x => f (src x)) srcOff n
      = fun a => f (memcpy mem dst src srcOff n a) := by
  funext a
  simp only [memcpy]
  split_ifs <;> rfl

theorem mapTensor_innerSizeOf (f : α → β) (t : Tensor α) (dim : Nat) :
    innerSizeOf (mapTensor f t) dim = innerSizeOf t dim := rfl

theorem totalInner_map (f : α → β) (dim : Nat) (ts : List (Tensor α)) :
    totalInner dim (ts.map (mapTensor f)) = totalInner dim ts := by
  induction ts with
  | nil => rfl
  | cons t ts ih =>
      show innerSizeOf (mapTensor f t) dim + totalInner dim (ts.map _)
          = innerSizeOf t dim + totalInner dim ts
      rw [mapTensor_innerSizeOf, ih]

theorem catCopyInputs_map (f : α → β) (dim i : Nat) (ts : List (Tensor α))
    (outPtr : Nat) (mem : Mem α) :
    catCopyInputs dim i (ts.map (mapTensor f)) outPtr (fun x => f (mem x))
      = fun a => f (catCopyInputs dim i ts outPtr mem a) := by
  induction ts generalizing outPtr mem with
  | nil => rfl
  | cons t ts ih =>
      show catCopyInputs dim i (ts.map (mapTensor f))
          (outPtr + innerSizeOf (mapTensor f t) dim)
          (memcpy (fun x => f (mem x)) outPtr (mapTensor f t).data
            (i * innerSizeOf (mapTensor f t) dim)
            (innerSizeOf (mapTensor f t) dim)) = _
      rw [mapTensor_innerSizeOf]
      have hdata : (mapTensor f t).data = fun x => f (t.data x) := rfl
      rw [hdata, memcpy_map f mem outPtr t.data (i * innerSizeOf t dim)
        (innerSizeOf t dim)]
      exact ih (outPtr + innerSizeOf t dim) _

theorem loopND_map (f : α → β) (dim oStride : Nat) (ts : List (Tensor α))
    (start n : Nat) (mem : Mem α) :
    loopND (ts.map (mapTensor f)) dim oStride start n (fun x => f (mem x))
      = fun a => f (loopND ts dim oStride start n mem a) := by
  induction n generalizing start mem with
  | zero => rfl
  | succ n ih =>
      show loopND (ts.map (mapTensor f)) dim oStride (start + 1) n
          (catCopyInputs dim start (ts.map (mapTensor f)) (start * oStride)
            (fun x => f (mem x))) = _
      rw [catCopyInputs_map f dim start ts (start * oStride) mem]
      exact ih (start + 1) _

/-! ## Kernel-level read lemmas -/

theorem kernel000_read (result : Tensor α) (ts : List (Tensor α)) (dim : Nat)
    (hle : totalInner dim ts ≤ outputStride result dim) (i r : Nat)
    (hi : i < outerCount result dim) (hr : r < totalInner dim ts) :
    catReadD dim i ts r
      = some (cat_contig_kernel_impl result ts dim
          (i * outputStride result dim + r)) := by
  show catReadD dim i ts r
    = some (loopND ts dim (outputStride result dim) 0 (outerCount result dim)
        result.data (i * outputStride result dim + r))
  rw [loopND_eq_runIndices]
  refine runIndices_read ts dim _ hle _ result.data i r ?_ hr
  rw [← List.range_eq_range']
  exact List.mem_range.mpr hi

theorem kernel001_read (W : Nat) (result : Tensor α) (ts : List (Tensor α))
    (dim : Nat) (hcompat : totalInner dim ts = outputStride result dim)
    (i r : Nat) (hi : i < outerCount result dim) (hr : r < totalInner dim ts) :
    catReadD dim i ts r
      = some (cat_contig_kernel_impl_seq W result ts dim
          (i * outputStride result dim + r)) := by
  rw [seq_eq_loopND, ← hcompat, loopND_eq_runIndices]
  refine runIndices_read ts dim _ (Nat.le_refl _) _ result.data i r ?_ hr
  rw [← List.range_eq_range']
  exact List.mem_range.mpr hi

/-- Reading input `j`'s element `idx` through the metadata list:
`some` of the value when `j` is in range, `none` otherwise. -/
def readInput (ts : List (Tensor α)) (j idx : Nat) : Option α :=
  (ts[j]?).map fun t => t.data idx

/-! ## Concrete instances for witnesses -/

/-- The spec's worked scenario, first input: a 2×2 row-major tensor
holding 1,2,3,4. -/
def sampleA : Tensor Nat := ⟨[2, 2], [2, 1], fun k => k + 1⟩

/-- The spec's worked scenario, second input: a 2×2 row-major tensor
holding 5,6,7,8. -/
def sampleB : Tensor Nat := ⟨[2, 2], [2, 1], fun k => k + 5⟩

/-- The spec's worked scenario, output: a 2×4 row-major tensor,
initially zero. -/
def sampleOut : Tensor Nat := ⟨[2, 4], [4, 1], fun _ => 0⟩

/-- An output tensor that is contiguous but empty along axis 1:
extents 2×0, strides 0,1. -/
def emptyAxisOutput : Tensor Nat := ⟨[2, 0], [0, 1], fun _ => 0⟩

/-! ## Claim theorems -/

/-- C1: for every list of contiguous inputs with compatible shapes along
the concatenation axis (`Σ inner_size[j] = output_group_stride`), for
every outer index the output's inner run equals, element by element, the
concatenation in input-list order of the inputs' inner runs — for the
parallel memcpy variant and for the sequential SIMD/scalar variant — and
over all outer indices this reconstructs the entire output buffer. -/
theorem claim_C1_reconstruction (result : Tensor α)
    (tensors : List (Tensor α)) (dim W : Nat)
    (hcompat : totalInner dim tensors = outputStride result dim)
    (i r : Nat) (hi : i < outerCount result dim)
    (hr : r < totalInner dim tensors) :
    catReadD dim i tensors r
      = some (cat_contig_kernel_impl result tensors dim
          (i * outputStride result dim + r)) ∧
    catReadD dim i tensors r
      = some (cat_contig_kernel_impl_seq W result tensors dim
          (i * outputStride result dim + r)) ∧
    ∀ a, a < outerCount result dim * outputStride result dim →
      catReadD dim (a / outputStride result dim) tensors
          (a % outputStride result dim)
        = some (cat_contig_kernel_impl result tensors dim a) := by
  refine ⟨kernel000_read result tensors dim hcompat.le i r hi hr,
    kernel001_read W result tensors dim hcompat i r hi hr, ?_⟩
  intro a ha
  have hpos : 0 < outputStride result dim := by
    rcases Nat.eq_zero_or_pos (outputStride result dim) with h0 | h
    · rw [h0, Nat.mul_zero] at ha
      omega
    · exact h
  have hi' : a / outputStride result dim < outerCount result dim :=
    (Nat.div_lt_iff_lt_mul hpos).mpr ha
  have hr' : a % outputStride result dim < totalInner dim tensors := by
    rw [hcompat]
    exact Nat.mod_lt _ hpos
  have hdm := Nat.div_add_mod a (outputStride result dim)
  have hcomm : outputStride result dim * (a / outputStride result dim)
      = (a / outputStride result dim) * outputStride result dim :=
    Nat.mul_comm _ _
  have ha_eq : (a / outputStride result dim) * outputStride result dim
      + a % outputStride result dim = a := by omega
  have h := kernel000_read result tensors dim hcompat.le
    (a / outputStride result dim) (a % outputStride result dim) hi' hr'
  rw [ha_eq] at h
  exact h

/-- C1 witness: the spec's 2×2 ++ 2×2 scenario along axis 1; element 1
of outer group 0 of the output is element 1 of the first input. -/
theorem claim_C1_witness :
    (totalInner 1 [sampleA, sampleB] = outputStride sampleOut 1 ∧
      0 < outerCount sampleOut 1 ∧ 1 < totalInner 1 [sampleA, sampleB]) ∧
    catReadD 1 0 [sampleA, sampleB] 1
      = some (cat_contig_kernel_impl sampleOut [sampleA, sampleB] 1
          (0 * outputStride sampleOut 1 + 1)) :=
  ⟨by decide,
    (claim_C1_reconstruction sampleOut [sampleA, sampleB] 1 4 (by decide)
      0 1 (by decide) (by decide)).1⟩

/-- C2: for every outer index `i` the copy loop writes input `j`'s
element `k` at output address
`i * output_group_stride + Σ_{j' < j} inner_size[j'] + k`, reading it
from input `j`'s address `i * inner_size[j] + k` — that is, the output
cursor starts at `output_base + i * output_group_stride`, advances by
`inner_size[j]` per input, and input `j` is read from
`input_base[j] + i * inner_size[j]`; moreover `inner_size[j]` is the
input's extent along the axis times its stride along the axis. -/
theorem claim_C2_copy_loop (result : Tensor α) (tensors : List (Tensor α))
    (dim : Nat)
    (hle : totalInner dim tensors ≤ outputStride result dim)
    (i : Nat) (hi : i < outerCount result dim)
    (j : Nat) (hj : j < tensors.length)
    (k : Nat) (hk : k < innerAt dim tensors j) :
    innerAt dim tensors j
      = (tensors.get ⟨j, hj⟩).size dim * (tensors.get ⟨j, hj⟩).stride dim ∧
    readInput tensors j (i * innerAt dim tensors j + k)
      = some (cat_contig_kernel_impl result tensors dim
          (i * outputStride result dim + (offsetBefore dim tensors j + k))) := by
  have hr : offsetBefore dim tensors j + k < totalInner dim tensors := by
    have := offsetBefore_innerAt_le_total dim tensors j hj
    omega
  have h1 := kernel000_read result tensors dim hle i
    (offsetBefore dim tensors j + k) hi hr
  have h2 := catReadD_at dim i tensors j hj k hk
  refine ⟨innerAt_eq_get dim tensors j hj, ?_⟩
  have hread : readInput tensors j (i * innerAt dim tensors j + k)
      = some ((tensors.get ⟨j, hj⟩).data (i * innerAt dim tensors j + k)) := by
    show (tensors[j]?).map _ = _
    rw [List.getElem?_eq_getElem hj]
    rfl
  rw [hread, ← h2, h1]

/-- C2 witness: in the spec scenario, outer index 1, input 1 (tensor B),
element 1: the output receives B's element 3 (value 8) at address
`1*4 + (2 + 1) = 7`. -/
theorem claim_C2_witness :
    (totalInner 1 [sampleA, sampleB] ≤ outputStride sampleOut 1 ∧
      1 < outerCount sampleOut 1 ∧ 1 < ([sampleA, sampleB] : List (Tensor Nat)).length ∧
      1 < innerAt 1 [sampleA, sampleB] 1) ∧
    readInput [sampleA, sampleB] 1 (1 * innerAt 1 [sampleA, sampleB] 1 + 1)
      = some (cat_contig_kernel_impl sampleOut [sampleA, sampleB] 1
          (1 * outputStride sampleOut 1
            + (offsetBefore 1 [sampleA, sampleB] 1 + 1))) :=
  ⟨by decide,
    (claim_C2_copy_loop sampleOut [sampleA, sampleB] 1 (by decide) 1
      (by decide) 1 (by decide) 1 (by decide)).2⟩

/-- C3: the partition parameters are the source's once-per-call
formulas: `outer_count` is the output element count divided by (extent
along axis × stride along axis), and the grain size is the global
per-task work-size constant divided by `output_group_stride`; the grain
size makes per-task copy work roughly constant — `grain · stride` is at
most `GRAIN_SIZE` and `(grain+1) · stride` exceeds it — and
`outer_count · stride` never exceeds the element count. -/
theorem claim_C3_partition_params (result : Tensor α) (dim : Nat)
    (h : 0 < outputStride result dim) :
    outerCount result dim
        = result.numel / (result.size dim * result.stride dim) ∧
    adjustedGrainSize result dim = GRAIN_SIZE / outputStride result dim ∧
    adjustedGrainSize result dim * outputStride result dim ≤ GRAIN_SIZE ∧
    GRAIN_SIZE
      < (adjustedGrainSize result dim + 1) * outputStride result dim ∧
    outerCount result dim * outputStride result dim ≤ result.numel := by
  refine ⟨rfl, rfl, Nat.div_mul_le_self _ _, ?_, ?_⟩
  · have h2 : GRAIN_SIZE % outputStride result dim < outputStride result dim :=
      Nat.mod_lt _ h
    calc GRAIN_SIZE
        = outputStride result dim * (GRAIN_SIZE / outputStride result dim)
            + GRAIN_SIZE % outputStride result dim :=
          (Nat.div_add_mod _ _).symm
      _ < outputStride result dim * (GRAIN_SIZE / outputStride result dim)
            + outputStride result dim := Nat.add_lt_add_left h2 _
      _ = (GRAIN_SIZE / outputStride result dim + 1)
            * outputStride result dim := by ring
  · have he : outputStride result dim
        = result.size dim * result.stride dim := Nat.mul_comm _ _
    rw [he]
    exact Nat.div_mul_le_self _ _

/-- C3 witness: on the 2×4 sample output along axis 1, the group stride
is 4, the grain size is 8192 and all the bounds hold. -/
theorem claim_C3_witness :
    0 < outputStride sampleOut 1 ∧
    (outerCount sampleOut 1
        = sampleOut.numel / (sampleOut.size 1 * sampleOut.stride 1) ∧
      adjustedGrainSize sampleOut 1 = GRAIN_SIZE / outputStride sampleOut 1 ∧
      adjustedGrainSize sampleOut 1 * outputStride sampleOut 1 ≤ GRAIN_SIZE ∧
      GRAIN_SIZE
        < (adjustedGrainSize sampleOut 1 + 1) * outputStride sampleOut 1 ∧
      outerCount sampleOut 1 * outputStride sampleOut 1 ≤ sampleOut.numel) :=
  ⟨by decide, claim_C3_partition_params sampleOut 1 (by decide)⟩

/-- C4: for every contribution width `n` and SIMD lane width `W`, the
vectorized bulk move and the element-by-element scalar loop produce
byte-identical memories, and the dispatch (`scalar if n < W, vector
otherwise`) always has the effect of one contiguous copy of exactly `n`
elements. -/
theorem claim_C4_copy_dispatch (W : Nat) (mem : Mem α) (dst : Nat)
    (src : Mem α) (srcOff n : Nat) :
    vecMapCopy W mem dst src srcOff n = scalarCopyLoop mem dst src srcOff n ∧
    catCopyDispatch W mem dst src srcOff n = memcpy mem dst src srcOff n :=
  ⟨(vecMapCopy_eq_memcpy W mem dst src srcOff n).trans
      (scalarCopyLoop_eq_memcpy mem dst src srcOff n).symm,
    catCopyDispatch_eq_memcpy W mem dst src srcOff n⟩

/-- C5: any partition of the outer range into non-overlapping covering
sub-ranges (a task list whose covered indices are a permutation of
`[0, outer_count)`) produces the same final memory, and in particular
the parallel memcpy-based variant and the sequential SIMD/scalar
variant compute byte-identical output. -/
theorem claim_C5_parallel_invariance (W : Nat) (result : Tensor α)
    (tensors : List (Tensor α)) (dim : Nat) (segs : List (Nat × Nat))
    (hcompat : totalInner dim tensors = outputStride result dim)
    (hperm : List.Perm (segIndices segs)
      (List.range (outerCount result dim))) :
    runSegments tensors dim (outputStride result dim) segs result.data
      = cat_contig_kernel_impl_seq W result tensors dim ∧
    cat_contig_kernel_impl result tensors dim
      = cat_contig_kernel_impl_seq W result tensors dim := by
  have hseq : cat_contig_kernel_impl_seq W result tensors dim
      = runIndices tensors dim (outputStride result dim)
          (List.range' 0 (outerCount result dim)) result.data := by
    rw [seq_eq_loopND, hcompat, loopND_eq_runIndices]
  have hpar : cat_contig_kernel_impl result tensors dim
      = runIndices tensors dim (outputStride result dim)
          (List.range' 0 (outerCount result dim)) result.data := by
    show loopND tensors dim (outputStride result dim) 0
        (outerCount result dim) result.data = _
    rw [loopND_eq_runIndices]
  constructor
  · rw [runSegments_eq_runIndices, hseq]
    refine runIndices_ext tensors dim _ hcompat.le _ _ result.data ?_
    intro i
    rw [hperm.mem_iff, ← List.range_eq_range']
  · rw [hpar, hseq]

/-- C5 witness: the spec scenario's outer range `[0, 2)` split into two
single-index tasks gives the same memory as the sequential variant, and
the two variants agree. -/
theorem claim_C5_witness :
    (totalInner 1 [sampleA, sampleB] = outputStride sampleOut 1 ∧
      List.Perm (segIndices [(0, 1), (1, 1)])
        (List.range (outerCount sampleOut 1))) ∧
    (runSegments [sampleA, sampleB] 1 (outputStride sampleOut 1)
        [(0, 1), (1, 1)] sampleOut.data
      = cat_contig_kernel_impl_seq 4 sampleOut [sampleA, sampleB] 1 ∧
    cat_contig_kernel_impl sampleOut [sampleA, sampleB] 1
      = cat_contig_kernel_impl_seq 4 sampleOut [sampleA, sampleB] 1) :=
  ⟨⟨by decide, by decide⟩,
    claim_C5_parallel_invariance 4 sampleOut [sampleA, sampleB] 1
      [(0, 1), (1, 1)] (by decide) (by decide)⟩

/-- C6: under the shape-compatibility invariant, no output address is
written by more than one (outer index, input index) pair, every address
of the output's covered extent is written by exactly one such pair
(distinct outer indices' regions never overlap, being distinct group
slots), and every address outside all pairs' regions is untouched by
the kernel. -/
theorem claim_C6_disjoint_cover (result : Tensor α)
    (tensors : List (Tensor α)) (dim : Nat)
    (hcompat : totalInner dim tensors = outputStride result dim) :
    (∀ a i j i' j', i < outerCount result dim → i' < outerCount result dim →
      writesAddr tensors dim (outputStride result dim) i j a →
      writesAddr tensors dim (outputStride result dim) i' j' a →
      i = i' ∧ j = j') ∧
    (∀ a, a < outerCount result dim * outputStride result dim →
      ∃ i j, i < outerCount result dim ∧
        writesAddr tensors dim (outputStride result dim) i j a) ∧
    (∀ a, (∀ i j, i < outerCount result dim →
        ¬ writesAddr tensors dim (outputStride result dim) i j a) →
      cat_contig_kernel_impl result tensors dim a = result.data a) := by
  refine ⟨?_, ?_, ?_⟩
  · intro a i j i' j' hi hi' h h'
    obtain ⟨hjlen, h1, h2⟩ := h
    obtain ⟨hjlen', h1', h2'⟩ := h'
    have hsub := offsetBefore_innerAt_le_total dim tensors j hjlen
    have hsub' := offsetBefore_innerAt_le_total dim tensors j' hjlen'
    have he : totalInner dim tensors = outputStride result dim := hcompat
    have hgroup : i * outputStride result dim ≤ a ∧
        a < i * outputStride result dim + outputStride result dim := by
      omega
    have hgroup' : i' * outputStride result dim ≤ a ∧
        a < i' * outputStride result dim + outputStride result dim := by
      omega
    have hii : i = i' := by
      have e1 : a / outputStride result dim = i := by
        refine Nat.div_eq_of_lt_le hgroup.1 ?_
        have e : (i + 1) * outputStride result dim
            = i * outputStride result dim + outputStride result dim := by
          ring
        omega
      have e2 : a / outputStride result dim = i' := by
        refine Nat.div_eq_of_lt_le hgroup'.1 ?_
        have e : (i' + 1) * outputStride result dim
            = i' * outputStride result dim + outputStride result dim := by
          ring
        omega
      omega
    subst hii
    refine ⟨rfl, ?_⟩
    rcases Nat.lt_trichotomy j j' with hlt | heq | hgt
    · have := offsetBefore_mono dim tensors j j' hlt hjlen'
      omega
    · exact heq
    · have := offsetBefore_mono dim tensors j' j hgt hjlen
      omega
  · intro a ha
    have hpos : 0 < outputStride result dim := by
      rcases Nat.eq_zero_or_pos (outputStride result dim) with h0 | h
      · rw [h0, Nat.mul_zero] at ha
        omega
      · exact h
    have hi : a / outputStride result dim < outerCount result dim :=
      (Nat.div_lt_iff_lt_mul hpos).mpr ha
    have hr : a % outputStride result dim < totalInner dim tensors := by
      rw [hcompat]
      exact Nat.mod_lt _ hpos
    obtain ⟨j, hjlen, hc1, hc2⟩ :=
      exists_cover dim tensors (a % outputStride result dim) hr
    refine ⟨a / outputStride result dim, j, hi, hjlen, ?_, ?_⟩
    · have hdm := Nat.div_add_mod a (outputStride result dim)
      have hcomm : outputStride result dim * (a / outputStride result dim)
          = (a / outputStride result dim) * outputStride result dim :=
        Nat.mul_comm _ _
      omega
    · have hdm := Nat.div_add_mod a (outputStride result dim)
      have hcomm : outputStride result dim * (a / outputStride result dim)
          = (a / outputStride result dim) * outputStride result dim :=
        Nat.mul_comm _ _
      omega
  · intro a hnone
    show loopND tensors dim (outputStride result dim) 0
        (outerCount result dim) result.data a = result.data a
    rw [loopND_eq_runIndices]
    refine runIndices_frame tensors dim _ _ result.data a ?_
    intro i hi_mem
    have hi : i < outerCount result dim := by
      rw [← List.range_eq_range'] at hi_mem
      exact List.mem_range.mp hi_mem
    by_contra hcon
    push_neg at hcon
    obtain ⟨j, hjlen, hc1, hc2⟩ :=
      exists_cover dim tensors (a - i * outputStride result dim) (by omega)
    exact hnone i j hi ⟨hjlen, by omega, by omega⟩

/-- C6 witness: in the spec scenario, address 5 is written exactly by
outer index 1, input 0; two coinciding pairs are equal, address 5 is
covered, and untouched addresses keep their initial value. -/
theorem claim_C6_witness :
    totalInner 1 [sampleA, sampleB] = outputStride sampleOut 1 ∧
    (∃ i j, i < outerCount sampleOut 1 ∧
      writesAddr [sampleA, sampleB] 1 (outputStride sampleOut 1) i j 5) :=
  ⟨by decide,
    (claim_C6_disjoint_cover sampleOut [sampleA, sampleB] 1 (by decide)).2.1
      5 (by decide)⟩

/-- C7: within one outer group, every output address written for the
input at list position `j + 1` is strictly greater than every output
address written for the input at position `j`: later inputs appear at
strictly later output offsets. -/
theorem claim_C7_order (tensors : List (Tensor α)) (dim oStride i j a b : Nat)
    (ha : writesAddr tensors dim oStride i j a)
    (hb : writesAddr tensors dim oStride i (j + 1) b) : a < b := by
  obtain ⟨hjlen, ha1, ha2⟩ := ha
  obtain ⟨hjlen', hb1, hb2⟩ := hb
  have := offsetBefore_mono dim tensors j (j + 1) (Nat.lt_succ_self j) hjlen'
  omega

/-- C7 witness: in the spec scenario's outer group 0, input 0 writes
address 1 and input 1 writes address 2, and 1 < 2. -/
theorem claim_C7_witness :
    (writesAddr [sampleA, sampleB] 1 4 0 0 1 ∧
      writesAddr [sampleA, sampleB] 1 4 0 1 2) ∧
    (1 : Nat) < 2 :=
  ⟨⟨by decide, by decide⟩,
    claim_C7_order [sampleA, sampleB] 1 4 0 0 1 2 (by decide) (by decide)⟩

/-- C8: the kernel is a pure raw-bit copy, with no arithmetic, rounding
or conversion on element values: both variants commute with an
arbitrary reinterpretation `f` of the element type.  Instantiating `f`
at bit patterns shows every special value (NaN, +Inf, -Inf, -0.0 bit
patterns) is reproduced exactly. -/
theorem claim_C8_pure_copy (f : α → β) (W : Nat) (result : Tensor α)
    (tensors : List (Tensor α)) (dim : Nat) :
    (∀ a, cat_contig_kernel_impl (mapTensor f result)
        (tensors.map (mapTensor f)) dim a
      = f (cat_contig_kernel_impl result tensors dim a)) ∧
    (∀ a, cat_contig_kernel_impl_seq W (mapTensor f result)
        (tensors.map (mapTensor f)) dim a
      = f (cat_contig_kernel_impl_seq W result tensors dim a)) := by
  constructor
  · intro a
    show loopND (tensors.map (mapTensor f)) dim
        (outputStride (mapTensor f result) dim) 0
        (outerCount (mapTensor f result) dim) (mapTensor f result).data a
      = _
    have ho : outputStride (mapTensor f result) dim
        = outputStride result dim := rfl
    have hc : outerCount (mapTensor f result) dim
        = outerCount result dim := rfl
    have hd : (mapTensor f result).data = fun x => f (result.data x) := rfl
    rw [ho, hc, hd,
      loopND_map f dim (outputStride result dim) tensors 0
        (outerCount result dim) result.data]
    rfl
  · intro a
    rw [seq_eq_loopND, seq_eq_loopND]
    have hc : outerCount (mapTensor f result) dim
        = outerCount result dim := rfl
    have hd : (mapTensor f result).data = fun x => f (result.data x) := rfl
    rw [hc, hd, totalInner_map,
      loopND_map f dim (totalInner dim tensors) tensors 0
        (outerCount result dim) result.data]

/-- C9: invoked with an empty input list, both kernel variants leave
every element of the output buffer untouched: the call is a no-op on
the output's contents. -/
theorem claim_C9_empty_noop (W : Nat) (result : Tensor α) (dim a : Nat) :
    cat_contig_kernel_impl result ([] : List (Tensor α)) dim a
        = result.data a ∧
    cat_contig_kernel_impl_seq W result ([] : List (Tensor α)) dim a
        = result.data a := by
  constructor
  · show loopND ([] : List (Tensor α)) dim (outputStride result dim) 0
        (outerCount result dim) result.data a = _
    rw [loopND_nil]
  · rw [seq_eq_loopND, loopND_nil]

/-- C10: the outer count is computed as the element count divided by
(extent × stride along the axis) and the grain size as `GRAIN_SIZE`
divided by `output_group_stride`, with no zero guard anywhere: a
well-formed (contiguous) output that is empty along the concatenation
axis makes both divisors zero.  (The C++ `int64_t` division by zero is
undefined behavior; the `Nat` embedding totalizes `x / 0` as `0`.) -/
theorem claim_C10_zero_divisor :
    Tensor.contiguous emptyAxisOutput ∧
    emptyAxisOutput.size 1 * emptyAxisOutput.stride 1 = 0 ∧
    outputStride emptyAxisOutput 1 = 0 ∧
    outerCount emptyAxisOutput 1 = emptyAxisOutput.numel / 0 ∧
    adjustedGrainSize emptyAxisOutput 1 = GRAIN_SIZE / 0 := by
  refine ⟨⟨rfl, ?_⟩, rfl, rfl, rfl, rfl⟩
  decide

end CatKernel
